import Mathlib

/-!
Shallow embedding of the calligraphy-DSL core of `src/grammar.py`
(class `CalligraphyDSL`): the PLY lexer (ordered keyword rules, the
closed-alphabet `CHINESE_NAME` rule, ignored filler characters, silent
skipping of unrecognized characters), the yacc grammar of seven sentence
shapes, and the per-shape resolver/formatter over the two hardcoded
tables, together with the public `parse` entry point.
-/

namespace CalligraphyDSL

/-- A record of the `self.calligraphers` table (grammar.py lines 13-50). -/
structure Calligrapher where
  dynasty : String
  style : String
  works : List String
  description : String
deriving DecidableEq

/-- A record of the `self.styles` table (grammar.py lines 52-74). -/
structure Style where
  description : String
  masters : List String
  features : List String
deriving DecidableEq

/-- The `self.calligraphers` table, in Python dict insertion order (grammar.py 13-50). -/
def calligraphers : List (String × Calligrapher) :=
  [ ("王羲之", ⟨"东晋", "行书", ["兰亭序", "黄庭经"],
      "书圣，行书代表作《兰亭序》被誉为天下第一行书"⟩)
  , ("颜真卿", ⟨"唐代", "楷书", ["祭侄文稿", "多宝塔碑"],
      "楷书四大家之一，创立颜体"⟩)
  , ("苏轼", ⟨"宋代", "行书", ["黄州寒食诗帖"],
      "宋代书法四大家之一，尚意书风代表"⟩)
  , ("柳公权", ⟨"唐代", "楷书", ["玄秘塔碑", "神策军碑"],
      "楷书四大家之一，创立柳体"⟩)
  , ("张旭", ⟨"唐代", "草书", ["古诗四帖"],
      "草圣，狂草书法代表人物"⟩)
  , ("欧阳询", ⟨"唐代", "楷书", ["九成宫醴泉铭"],
      "楷书四大家族之一，欧体创始人"⟩) ]

/-- The `self.styles` table, in Python dict insertion order (grammar.py 52-74). -/
def styles : List (String × Style) :=
  [ ("行书", ⟨"笔势流畅、动静相宜，介于楷书和草书之间",
      ["王羲之", "苏轼", "颜真卿"], ["用笔灵活", "结构自如", "书写便捷"]⟩)
  , ("楷书", ⟨"结构严谨、笔画端正，法度森严",
      ["颜真卿", "柳公权", "欧阳询"], ["横平竖直", "结构方正", "笔力劲健"]⟩)
  , ("草书", ⟨"纵任奔逸、赴速急就，艺术性极强",
      ["张旭", "怀素", "王献之"], ["笔势连绵", "气势贯通", "变化多端"]⟩)
  , ("隶书", ⟨"字形扁平、笔画波磔，古朴典雅",
      ["蔡邕", "钟繇", "邓石如"], ["蚕头雁尾", "一波三折", "结构严谨"]⟩) ]

/-- Exact-key table lookup, modelling Python `k in table` / `table[k]` /
`table.get(k)` on the (insertion-ordered) dicts. -/
def lookupTable {α : Type} (tbl : List (String × α)) (k : String) : Option α :=
  (tbl.find? (fun p => p.1 == k)).map (fun p => p.2)

/-- The token kinds of the lexer (grammar.py 77-80).  `DYNASTY` carries its
normalized value, `NAME` carries the matched run (`CHINESE_NAME`). -/
inductive Tok where
  | FIND : Tok
  | CALLIGRAPHER : Tok
  | WORK : Tok
  | STYLE : Tok
  | INFO : Tok
  | DYNASTY : String → Tok
  | NAME : String → Tok
deriving DecidableEq

/-- Characters of `t_ignore = ' \t\r\n的'` (grammar.py line 87). -/
def ignoreChars : List Char := [' ', '\t', '\r', '\n', '的']

/-- Alternatives of `t_CALLIGRAPHER`, in regex alternation order. -/
def calligrapherForms : List (List Char) :=
  [String.toList "书法家", String.toList "书家",
   String.toList "书法大师", String.toList "书法名家"]

/-- Alternatives of `t_WORK`, in regex alternation order. -/
def workForms : List (List Char) :=
  [String.toList "作品", String.toList "书法作品", String.toList "著名作品",
   String.toList "墨宝", String.toList "代表作"]

/-- Alternatives of `t_STYLE`, in regex alternation order. -/
def styleForms : List (List Char) :=
  [String.toList "风格", String.toList "书体", String.toList "字体",
   String.toList "书法风格", String.toList "书风"]

/-- Alternatives of `t_DYNASTY`, in regex alternation order. -/
def dynastyForms : List (List Char) :=
  [String.toList "唐代", String.toList "宋代", String.toList "晋代",
   String.toList "明代", String.toList "清代", String.toList "唐朝",
   String.toList "宋朝", String.toList "晋朝", String.toList "明朝",
   String.toList "清朝", String.toList "东晋"]

/-- Alternatives of `t_INFO`. -/
def infoForms : List (List Char) := [String.toList "信息"]

/-- Alternatives of `t_FIND`, in regex alternation order. -/
def findForms : List (List Char) :=
  [String.toList "查询", String.toList "查找", String.toList "搜索",
   String.toList "找", String.toList "请问", String.toList "我想知道",
   String.toList "了解", String.toList "显示", String.toList "展示"]

/-- The closed character class of `t_CHINESE_NAME` (grammar.py line 118). -/
def nameAlphabet : List Char :=
  String.toList "王羲之颜真卿苏轼柳公权张旭欧阳询兰亭序黄庭经祭侄文稿多宝塔碑黄州寒食诗帖玄秘塔碑神策军碑古诗四帖九成宫醴泉铭行书楷书草书隶书"

/-- Membership in the closed `CHINESE_NAME` alphabet. -/
def alphaMem (c : Char) : Bool := nameAlphabet.contains c

/-- The synonym table inside `t_DYNASTY` (grammar.py 104-105). -/
def dynastyMap : List (String × String) :=
  [("唐朝", "唐代"), ("宋朝", "宋代"), ("晋朝", "晋代"),
   ("明朝", "明代"), ("清朝", "清代")]

/-- Evaluation of `dynasty_map.get(t.value, t.value)` (grammar.py line 106). -/
def normalizeDynasty (v : String) : String :=
  ((dynastyMap.find? (fun p => p.1 == v)).map (fun p => p.2)).getD v

/-- Try a token rule's alternatives in regex alternation order; Python's
`re` alternation picks the first alternative that matches at the current
position.  Returns the matched alternative and the rest of the input. -/
def tryForms : List (List Char) → List Char → Option (List Char × List Char)
  | [], _ => none
  | f :: fs, s => if f.isPrefixOf s then some (f, s.drop f.length) else tryForms fs s

/-- The keyword token rules in PLY source order (`t_CALLIGRAPHER`,
`t_WORK`, `t_STYLE`, `t_DYNASTY`, `t_INFO`, `t_FIND`), each paired with
the token its action produces from the matched text (only `t_DYNASTY`
inspects it, applying the synonym map). -/
def keywordRules : List (List (List Char) × (List Char → Tok)) :=
  [ (calligrapherForms, fun _ => Tok.CALLIGRAPHER)
  , (workForms, fun _ => Tok.WORK)
  , (styleForms, fun _ => Tok.STYLE)
  , (dynastyForms, fun m => Tok.DYNASTY (normalizeDynasty (String.mk m)))
  , (infoForms, fun _ => Tok.INFO)
  , (findForms, fun _ => Tok.FIND) ]

/-- Try the keyword rules in order at the current position. -/
def keywordMatch : List (List (List Char) × (List Char → Tok)) → List Char →
    Option (Tok × List Char)
  | [], _ => none
  | (F, mk) :: rules, s =>
    match tryForms F s with
    | some (g, r) => some (mk g, r)
    | none => keywordMatch rules s

/-- Rule `t_CHINESE_NAME`: the greedy run over the closed alphabet (it fires
only when the current character is in the alphabet). -/
def nameMatch : List Char → Option (Tok × List Char)
  | [] => none
  | c :: rest =>
    if alphaMem c then
      some (Tok.NAME (String.mk ((c :: rest).takeWhile alphaMem)),
        (c :: rest).dropWhile alphaMem)
    else none

/-- One attempt of PLY's master pattern at the current position: the token
function rules in source order, the last (`t_CHINESE_NAME`) being the
greedy closed-alphabet run. `none` models `t_error` (skip one char). -/
def masterMatch (s : List Char) : Option (Tok × List Char) :=
  match keywordMatch keywordRules s with
  | some tr => some tr
  | none => nameMatch s

/-- PLY's `token()` loop: skip `t_ignore` characters, try the master
pattern, and on lexical error skip one character and continue
(`t_error`, grammar.py 128-130).  Returns the next token and the
remaining input, or `none` when the input is exhausted. -/
def nextTok : List Char → Option (Tok × List Char)
  | [] => none
  | c :: rest =>
    if ignoreChars.contains c then nextTok rest
    else
      match masterMatch (c :: rest) with
      | some tr => some tr
      | none => nextTok rest

/-- Fueled tokenization loop (each step consumes at least one character,
so fuel = input length suffices). -/
def lexGo : Nat → List Char → List Tok
  | 0, _ => []
  | _, [] => []
  | fuel + 1, c :: rest =>
    match nextTok (c :: rest) with
    | none => []
    | some (t, r) => t :: lexGo fuel r

/-- The full token sequence of an input. -/
def lexList (s : List Char) : List Tok := lexGo s.length s

/-- A matched sentence shape with its extracted name/dynasty: the seven
grammar rules of grammar.py 133-253. -/
inductive Query where
  | calligrapherDetail : String → Query
  | workRepresentative : String → Query
  | styleDetail : String → Query
  | calligrapherStyle : String → Query
  | dynastyCalligraphers : String → Query
  | calligrapherInfo : String → Query
  | direct : String → Query
deriving DecidableEq

/-- The yacc grammar: the parse succeeds exactly when the whole token
sequence instantiates one of the seven shapes (grammar.py 133-253); any
other sequence — zero shapes, or tokens left over after a matching
prefix — hits `p_error` and the parser returns `None`. -/
def parseTokens : List Tok → Option Query
  | [Tok.FIND, Tok.CALLIGRAPHER, Tok.NAME n] => some (Query.calligrapherDetail n)
  | [Tok.FIND, Tok.NAME n, Tok.WORK] => some (Query.workRepresentative n)
  | [Tok.FIND, Tok.STYLE, Tok.NAME n] => some (Query.styleDetail n)
  | [Tok.FIND, Tok.NAME n, Tok.STYLE] => some (Query.calligrapherStyle n)
  | [Tok.FIND, Tok.DYNASTY d, Tok.CALLIGRAPHER] => some (Query.dynastyCalligraphers d)
  | [Tok.FIND, Tok.NAME n, Tok.INFO] => some (Query.calligrapherInfo n)
  | [Tok.FIND, Tok.NAME n] => some (Query.direct n)
  | _ => none

/-- Python's `'、'.join(xs)` (and the same for any separator). -/
def joinSep (sep : String) : List String → String
  | [] => ""
  | [x] => x
  | x :: xs => x ++ sep ++ joinSep sep xs

/-- Action of `p_find_calligrapher_detail` (rule 1, grammar.py 146-157). -/
def renderCalligrapherDetail (name : String) : String :=
  match lookupTable calligraphers name with
  | some info =>
      "📖 " ++ name ++ "书法家信息：\n   朝代：" ++ info.dynasty ++
      "\n   擅长书体：" ++ info.style ++
      "\n   代表作品：" ++ joinSep "、" info.works ++
      "\n   简介：" ++ info.description
  | none => "❌ 未找到书法家'" ++ name ++ "'的信息"

/-- Action of `p_find_work_representative` (rule 2, grammar.py 160-169). -/
def renderWorkRepresentative (c : String) : String :=
  match lookupTable calligraphers c with
  | some info =>
      "🎨 " ++ c ++ "的代表作品（" ++ info.style ++ "）：\n   " ++
      joinSep "、" info.works
  | none => "❌ 未找到" ++ c ++ "的作品记录"

/-- Action of `p_find_direct` (rule 3, grammar.py 172-197): reverse scan of every
calligrapher's `works` in dict order, then fallback to a calligrapher
lookup, then the generic not-found template. -/
def renderFindDirect (w : String) : String :=
  match calligraphers.find? (fun p => p.2.works.contains w) with
  | some p =>
      "📜 " ++ w ++ "是" ++ p.1 ++ "的代表作\n   书体：" ++ p.2.style ++
      "\n   朝代：" ++ p.2.dynasty ++ "\n   书法家简介：" ++ p.2.description
  | none =>
    match lookupTable calligraphers w with
    | some info =>
        "📖 " ++ w ++ "书法家信息：\n   朝代：" ++ info.dynasty ++
        "\n   擅长书体：" ++ info.style ++
        "\n   代表作品：" ++ joinSep "、" info.works ++
        "\n   简介：" ++ info.description
    | none => "❌ 未找到'" ++ w ++ "'的相关信息"

/-- Action of `p_find_style` (rule 4, grammar.py 200-210). -/
def renderStyleDetail (style : String) : String :=
  match lookupTable styles style with
  | some info =>
      "🖋️ " ++ style ++ "书体信息：\n   特点：" ++ info.description ++
      "\n   代表书家：" ++ joinSep "、" info.masters ++
      "\n   艺术特征：" ++ joinSep "、" info.features
  | none => "❌ 未找到" ++ style ++ "书体的详细说明"

/-- Action of `p_find_calligrapher_style` (rule 5, grammar.py 213-223), generic in
the two instance tables it reads (`self.calligraphers`, `self.styles`):
`self.styles.get(style, {}).get('description', '暂无详细描述')`. -/
def renderCalligrapherStyleGen (cs : List (String × Calligrapher))
    (ss : List (String × Style)) (c : String) : String :=
  match lookupTable cs c with
  | some info =>
      "🎯 " ++ c ++ "的书法风格：\n   擅长" ++ info.style ++
      "书体\n   风格特点：" ++
      (((lookupTable ss info.style).map (fun s => s.description)).getD "暂无详细描述")
  | none => "❌ 未找到" ++ c ++ "的书法风格信息"

/-- Rule 5 on the program's own tables. -/
def renderCalligrapherStyle (c : String) : String :=
  renderCalligrapherStyleGen calligraphers styles c

/-- The list comprehension of `p_find_dynasty_calligraphers`
(grammar.py 229-230). -/
def dynastyArtists (dynasty : String) : List (String × Calligrapher) :=
  calligraphers.filter (fun p => p.2.dynasty == dynasty)

/-- Action of `p_find_dynasty_calligraphers` (rule 6, grammar.py 226-239). -/
def renderDynastyCalligraphers (dynasty : String) : String :=
  match dynastyArtists dynasty with
  | [] => "❌ 未找到" ++ dynasty ++ "的书法家记录"
  | a :: rest =>
      "🏛️ " ++ dynasty ++ "著名书法家：\n   " ++
      joinSep "、" ((a :: rest).map (fun p => p.1 ++ "（" ++ p.2.style ++ "）"))

/-- Action of `p_find_calligrapher_info` (rule 7, grammar.py 242-253); its body is
a verbatim copy of rule 1's. -/
def renderCalligrapherInfo (name : String) : String :=
  match lookupTable calligraphers name with
  | some info =>
      "📖 " ++ name ++ "书法家信息：\n   朝代：" ++ info.dynasty ++
      "\n   擅长书体：" ++ info.style ++
      "\n   代表作品：" ++ joinSep "、" info.works ++
      "\n   简介：" ++ info.description
  | none => "❌ 未找到书法家'" ++ name ++ "'的信息"

/-- Dispatch a matched shape to its semantic action (`p_query` just
passes the chosen rule's string through, grammar.py 133-143). -/
def resolve : Query → String
  | Query.calligrapherDetail n => renderCalligrapherDetail n
  | Query.workRepresentative n => renderWorkRepresentative n
  | Query.styleDetail n => renderStyleDetail n
  | Query.calligrapherStyle n => renderCalligrapherStyle n
  | Query.dynastyCalligraphers d => renderDynastyCalligraphers d
  | Query.calligrapherInfo n => renderCalligrapherInfo n
  | Query.direct n => renderFindDirect n

/-- The fixed string of `p_error` when the input cannot be parsed
(grammar.py 260, returned by `parse` at line 268 since a failed parse
yields `None`, which is falsy). -/
def notUnderstood : String := "无法理解您的查询，请尝试重新表述"

/-- The public entry point `CalligraphyDSL.parse` (grammar.py 262-270):
`result if result else "无法理解您的查询，请尝试重新表述"`. -/
def parse (text : String) : String :=
  match parseTokens (lexList text.toList) with
  | some q => if resolve q = "" then notUnderstood else resolve q
  | none => notUnderstood

/-- Relation `Reach s r`: starting the lexer on `s`, the remainder `r` is reached
after consuming zero or more whole tokens — i.e. the split of `s` just
before `r` is a token boundary of `s`. -/
inductive Reach : List Char → List Char → Prop where
  | refl (s : List Char) : Reach s s
  | tok {s m r : List Char} {t : Tok} :
      nextTok s = some (t, m) → Reach m r → Reach s r

/-- A one-row calligrapher table whose `style` value is absent from the
style table below, exercising rule 5's `.get(style, {}).get(...)`
fallback (the shipped tables never miss that secondary lookup). -/
def demoCalligraphers : List (String × Calligrapher) :=
  [("甲", ⟨"唐代", "篆书", [], ""⟩)]

/-- An empty style table for the same purpose. -/
def demoStyles : List (String × Style) := []

/-! ### Closed facts about the lexer's vocabularies -/

lemma forms_ne_nil : ∀ p ∈ keywordRules, ∀ g ∈ p.1, g ≠ [] := by decide

lemma forms_ignore_free : ∀ p ∈ keywordRules, ∀ g ∈ p.1, ∀ c ∈ g, c ∉ ignoreChars := by decide

lemma forms_nonalpha : ∀ p ∈ keywordRules, ∀ g ∈ p.1, ∃ c ∈ g, alphaMem c = false := by decide

lemma ignore_nonalpha : ∀ c ∈ ignoreChars, alphaMem c = false := by decide

/-! ### Generic helpers -/

lemma contains_eq_false {c : Char} {L : List Char} (h : c ∉ L) : L.contains c = false := by
  simpa using h

lemma mem_of_contains {c : Char} {L : List Char} (h : L.contains c = true) : c ∈ L := by
  simpa using h

lemma takeWhile_app {P : Char → Bool} {u X : List Char} (h : ∀ c ∈ u, P c = true) :
    (u ++ X).takeWhile P = u ++ X.takeWhile P := by
  induction u with
  | nil => simp
  | cons c u ih =>
    have hc := h c (List.mem_cons_self c u)
    simp [List.takeWhile_cons, hc, ih (fun d hd => h d (List.mem_cons_of_mem c hd))]

lemma dropWhile_app {P : Char → Bool} {u X : List Char} (h : ∀ c ∈ u, P c = true) :
    (u ++ X).dropWhile P = X.dropWhile P := by
  induction u with
  | nil => simp
  | cons c u ih =>
    have hc := h c (List.mem_cons_self c u)
    simp [List.dropWhile_cons, hc, ih (fun d hd => h d (List.mem_cons_of_mem c hd))]

lemma dropWhile_length_le (P : Char → Bool) (s : List Char) :
    (s.dropWhile P).length ≤ s.length := by
  induction s with
  | nil => simp
  | cons c s ih =>
    cases hp : P c
    · simp [List.dropWhile_cons, hp]
    · rw [List.dropWhile_cons, if_pos hp]
      exact Nat.le_succ_of_le ih

lemma dropWhile_self_head {P : Char → Bool} {c : Char} {m : List Char}
    (h : List.dropWhile P (c :: m) = c :: m) : P c = false := by
  cases hp : P c
  · rfl
  · exfalso
    rw [List.dropWhile_cons, if_pos hp] at h
    have hle := dropWhile_length_le P m
    rw [h] at hle
    simp at hle

lemma self_isPrefixOf_append (u X : List Char) : u.isPrefixOf (u ++ X) = true := by
  rw [ List.isPrefixOf_iff_prefix]
  exact ⟨X, rfl⟩

/-- An ignore-free list that is a prefix of `A ++ f :: B`, with `f` an
ignored character, cannot reach past the insertion point, so it is also
a prefix of `A ++ B`. -/
lemma no_cross {g A B : List Char} {f : Char}
    (hg : ∀ c ∈ g, c ∉ ignoreChars) (hf : f ∈ ignoreChars)
    (h : g.isPrefixOf (A ++ f :: B) = true) : g.isPrefixOf (A ++ B) = true := by
  rw [ List.isPrefixOf_iff_prefix] at h ⊢
  obtain ⟨t, ht⟩ := h
  rcases le_or_lt g.length A.length with hl | hl
  · have h1 : List.take g.length (g ++ t) = g := List.take_left g t
    have h2 : List.take g.length (A ++ f :: B) = List.take g.length A := by
      rw [List.take_append_eq_append_take]
      simp [Nat.sub_eq_zero_of_le hl]
    have hga : g = List.take g.length A := by rw [← h2, ← ht, h1]
    have hpre : g <+: A := by
      rw [hga]
      exact List.take_prefix g.length A
    obtain ⟨w, hw⟩ := hpre
    exact ⟨w ++ B, by rw [← List.append_assoc, hw]⟩
  · exfalso
    have h1 : List.drop A.length (g ++ t) = List.drop A.length g ++ t := by
      rw [List.drop_append_eq_append_drop]
      simp [Nat.sub_eq_zero_of_le (Nat.le_of_lt hl)]
    have h2 : List.drop A.length (A ++ f :: B) = f :: B := List.drop_left A (f :: B)
    have h3 : List.drop A.length g ++ t = f :: B := by rw [← h1, ht, h2]
    have h4 : List.drop A.length g ≠ [] := by
      intro hnil
      have h5 := List.length_drop A.length g
      rw [hnil] at h5
      simp at h5
      omega
    obtain ⟨c, cs, hc⟩ := List.exists_cons_of_ne_nil h4
    rw [hc] at h3
    have hcf : c = f := by
      rw [List.cons_append] at h3
      exact (List.cons.injEq _ _ _ _ ▸ h3).1
    have hcg : c ∈ g := List.mem_of_mem_drop (hc ▸ List.mem_cons_self c cs)
    exact hg c hcg (hcf ▸ hf)

/-! ### tryForms: alternation in order -/

lemma tryForms_none_iff {F : List (List Char)} {s : List Char} :
    tryForms F s = none ↔ ∀ g ∈ F, g.isPrefixOf s = false := by
  induction F with
  | nil => simp [tryForms]
  | cons f fs ih =>
    cases hp : f.isPrefixOf s
    · simp [tryForms, hp, ih]
    · simp [tryForms, hp]

lemma tryForms_spec {F : List (List Char)} {s f : List Char} {r : List Char}
    (h : tryForms F s = some (f, r)) :
    f ∈ F ∧ f.isPrefixOf s = true ∧ r = s.drop f.length := by
  induction F with
  | nil => simp [tryForms] at h
  | cons g gs ih =>
    cases hp : g.isPrefixOf s
    · rw [tryForms, if_neg (by simp [hp])] at h
      obtain ⟨h1, h2, h3⟩ := ih h
      exact ⟨List.mem_cons_of_mem g h1, h2, h3⟩
    · rw [tryForms, if_pos hp] at h
      have h1 : g = f ∧ List.drop g.length s = r := by simpa using h
      obtain ⟨rfl, rfl⟩ := h1
      exact ⟨List.mem_cons_self g gs, hp, rfl⟩

lemma prefix_drop_eq {g u m : List Char} (hp : g.isPrefixOf (u ++ m) = true)
    (hd : List.drop g.length (u ++ m) = m) : g = u := by
  rw [ List.isPrefixOf_iff_prefix] at hp
  obtain ⟨t, ht⟩ := hp
  have hlen : g.length = u.length := by
    have h1 := List.length_drop g.length (u ++ m)
    rw [hd] at h1
    have h2 : g.length ≤ (u ++ m).length := by
      rw [← ht]; simp
    simp [List.length_append] at h1 h2
    omega
  exact (List.append_inj ht hlen).1

lemma drop_length_lt {g s : List Char} (hg : g ≠ []) (hp : g.isPrefixOf s = true) :
    (List.drop g.length s).length < s.length := by
  rw [ List.isPrefixOf_iff_prefix] at hp
  obtain ⟨t, ht⟩ := hp
  rw [List.length_drop]
  have h1 : g.length ≤ s.length := by rw [← ht]; simp
  have h2 : 0 < g.length := List.length_pos.mpr hg
  omega

/-! ### keywordMatch: the ordered keyword rules -/

lemma keywordMatch_none_iff {rules : List (List (List Char) × (List Char → Tok))}
    {s : List Char} :
    keywordMatch rules s = none ↔ ∀ p ∈ rules, tryForms p.1 s = none := by
  induction rules with
  | nil => simp [keywordMatch]
  | cons p rules ih =>
    obtain ⟨F, mk⟩ := p
    cases h1 : tryForms F s with
    | none =>
      constructor
      · intro h p hp
        rcases List.mem_cons.mp hp with rfl | hp'
        · exact h1
        · exact (ih.mp (by simpa only [keywordMatch, h1] using h)) p hp'
      · intro h
        simp only [keywordMatch, h1]
        exact ih.mpr (fun p hp => h p (List.mem_cons_of_mem (F, mk) hp))
    | some q =>
      constructor
      · intro h
        exfalso
        obtain ⟨g, r'⟩ := q
        simp only [keywordMatch, h1] at h
        exact Option.noConfusion h
      · intro h
        exfalso
        have h2 := h (F, mk) (List.mem_cons_self (F, mk) rules)
        rw [h1] at h2
        exact Option.noConfusion h2

lemma keywordMatch_spec {rules : List (List (List Char) × (List Char → Tok))}
    {s : List Char} {t : Tok} {r : List Char}
    (h : keywordMatch rules s = some (t, r)) :
    ∃ p ∈ rules, ∃ g ∈ p.1, g.isPrefixOf s = true ∧ r = List.drop g.length s ∧ t = p.2 g := by
  induction rules with
  | nil => simp [keywordMatch] at h
  | cons p rules ih =>
    obtain ⟨F, mk⟩ := p
    cases h1 : tryForms F s with
    | none =>
      simp only [keywordMatch, h1] at h
      obtain ⟨p', hp', hrest⟩ := ih h
      exact ⟨p', List.mem_cons_of_mem (F, mk) hp', hrest⟩
    | some q =>
      obtain ⟨g, r'⟩ := q
      simp only [keywordMatch, h1] at h
      have h2 : mk g = t ∧ r' = r := by simpa using h
      obtain ⟨hg1, hg2, hg3⟩ := tryForms_spec h1
      exact ⟨(F, mk), List.mem_cons_self (F, mk) rules, g, hg1, hg2,
        by rw [← h2.2, hg3], h2.1.symm⟩

lemma keywordMatch_ins_none {rules : List (List (List Char) × (List Char → Tok))}
    {u l r : List Char} {f : Char}
    (hF : ∀ p ∈ rules, ∀ g ∈ p.1, ∀ c ∈ g, c ∉ ignoreChars) (hf : f ∈ ignoreChars)
    (h : keywordMatch rules (u ++ (l ++ r)) = none) :
    keywordMatch rules (u ++ (l ++ f :: r)) = none := by
  rw [keywordMatch_none_iff] at h ⊢
  intro p hp
  have hforms := h p hp
  rw [tryForms_none_iff] at hforms ⊢
  intro g hg
  cases hq : g.isPrefixOf (u ++ (l ++ f :: r))
  · rfl
  · exfalso
    have hq' : g.isPrefixOf ((u ++ l) ++ f :: r) = true := by
      rw [List.append_assoc]; exact hq
    have h3 := no_cross (hF p hp g hg) hf hq'
    rw [List.append_assoc] at h3
    have h4 := hforms g hg
    rw [h3] at h4
    exact Bool.noConfusion h4

lemma tryForms_ins_some {F : List (List Char)} {u m l r : List Char} {f : Char}
    {g : List Char}
    (hF : ∀ g' ∈ F, ∀ c ∈ g', c ∉ ignoreChars) (hf : f ∈ ignoreChars)
    (hm : m = l ++ r) (h : tryForms F (u ++ m) = some (g, m)) :
    g = u ∧ tryForms F (u ++ (l ++ f :: r)) = some (g, l ++ f :: r) := by
  induction F with
  | nil => simp [tryForms] at h
  | cons g0 F ih =>
    cases hp : g0.isPrefixOf (u ++ m)
    · rw [tryForms, if_neg (by simp [hp])] at h
      have hF' : ∀ g' ∈ F, ∀ c ∈ g', c ∉ ignoreChars :=
        fun g' hg' => hF g' (List.mem_cons_of_mem g0 hg')
      obtain ⟨h1, h2⟩ := ih hF' h
      refine ⟨h1, ?_⟩
      have hp2 : g0.isPrefixOf (u ++ (l ++ f :: r)) = false := by
        cases hq : g0.isPrefixOf (u ++ (l ++ f :: r))
        · rfl
        · exfalso
          have hq' : g0.isPrefixOf ((u ++ l) ++ f :: r) = true := by
            rw [List.append_assoc]; exact hq
          have h3 := no_cross (hF g0 (List.mem_cons_self g0 F)) hf hq'
          rw [List.append_assoc, ← hm] at h3
          rw [h3] at hp
          exact Bool.noConfusion hp
      rw [tryForms, if_neg (by simp [hp2])]
      exact h2
    · rw [tryForms, if_pos hp] at h
      have h1 : g0 = g ∧ List.drop g0.length (u ++ m) = m := by simpa using h
      obtain ⟨hgg, hdrop⟩ := h1
      have hg0u : g0 = u := prefix_drop_eq hp hdrop
      constructor
      · rw [← hgg]; exact hg0u
      · rw [tryForms, if_pos (by rw [hg0u]; exact self_isPrefixOf_append u (l ++ f :: r))]
        rw [← hgg, hg0u, List.drop_left]

lemma keywordMatch_ins_some {rules : List (List (List Char) × (List Char → Tok))}
    {u m l r : List Char} {f : Char} {t : Tok}
    (hF : ∀ p ∈ rules, ∀ g ∈ p.1, ∀ c ∈ g, c ∉ ignoreChars) (hf : f ∈ ignoreChars)
    (hm : m = l ++ r) (h : keywordMatch rules (u ++ m) = some (t, m)) :
    keywordMatch rules (u ++ (l ++ f :: r)) = some (t, l ++ f :: r) := by
  induction rules with
  | nil => simp [keywordMatch] at h
  | cons p rules ih =>
    obtain ⟨F, mk⟩ := p
    cases h1 : tryForms F (u ++ m) with
    | none =>
      simp only [keywordMatch, h1] at h
      have hF' : ∀ p ∈ rules, ∀ g ∈ p.1, ∀ c ∈ g, c ∉ ignoreChars :=
        fun p hp => hF p (List.mem_cons_of_mem (F, mk) hp)
      have h2 : tryForms F (u ++ (l ++ f :: r)) = none := by
        rw [tryForms_none_iff] at h1 ⊢
        intro g hg
        cases hq : g.isPrefixOf (u ++ (l ++ f :: r))
        · rfl
        · exfalso
          have hq' : g.isPrefixOf ((u ++ l) ++ f :: r) = true := by
            rw [List.append_assoc]; exact hq
          have h3 := no_cross (hF (F, mk) (List.mem_cons_self (F, mk) rules) g hg) hf hq'
          rw [List.append_assoc, ← hm] at h3
          have h4 := h1 g hg
          rw [h3] at h4
          exact Bool.noConfusion h4
      simp only [keywordMatch, h2]
      exact ih hF' h
    | some q =>
      obtain ⟨g, r'⟩ := q
      simp only [keywordMatch, h1] at h
      have h2 : mk g = t ∧ r' = m := by simpa using h
      have hF0 : ∀ g' ∈ F, ∀ c ∈ g', c ∉ ignoreChars :=
        hF (F, mk) (List.mem_cons_self (F, mk) rules)
      have h1' : tryForms F (u ++ m) = some (g, m) := by rw [h1, h2.2]
      obtain ⟨hgu, h3⟩ := tryForms_ins_some hF0 hf hm h1'
      simp only [keywordMatch, h3, h2.1]

/-! ### masterMatch -/

lemma masterMatch_cases {s : List Char} {t : Tok} {r : List Char}
    (h : masterMatch s = some (t, r)) :
    (∃ p ∈ keywordRules, ∃ g ∈ p.1,
      g.isPrefixOf s = true ∧ r = List.drop g.length s ∧ t = p.2 g) ∨
    (∃ c rest, s = c :: rest ∧ alphaMem c = true ∧
      t = Tok.NAME (String.mk (s.takeWhile alphaMem)) ∧ r = s.dropWhile alphaMem) := by
  cases h1 : keywordMatch keywordRules s with
  | some tr =>
    obtain ⟨t0, r0⟩ := tr
    simp only [masterMatch, h1] at h
    have h2 : t0 = t ∧ r0 = r := by simpa using h
    obtain ⟨p, hp, g, hg, h3, h4, h5⟩ := keywordMatch_spec (h2.1 ▸ h2.2 ▸ h1)
    exact Or.inl ⟨p, hp, g, hg, h3, h4, h5⟩
  | none =>
    simp only [masterMatch, h1] at h
    cases s with
    | nil => exact Option.noConfusion h
    | cons c rest =>
      rw [nameMatch] at h
      cases ha : alphaMem c
      · rw [if_neg (by simp [ha])] at h
        exact Option.noConfusion h
      · rw [if_pos ha] at h
        have h2 := Option.some.injEq _ _ ▸ h
        refine Or.inr ⟨c, rest, rfl, ha, ?_, ?_⟩
        · exact ((Prod.mk.injEq _ _ _ _ ▸ h2).1).symm
        · exact ((Prod.mk.injEq _ _ _ _ ▸ h2).2).symm

lemma masterMatch_length {s : List Char} {t : Tok} {r : List Char}
    (h : masterMatch s = some (t, r)) : r.length < s.length := by
  rcases masterMatch_cases h with ⟨p, hp, g, hg, hpre, hr, -⟩ | ⟨c, rest, rfl, ha, -, hr⟩
  · rw [hr]
    exact drop_length_lt (forms_ne_nil p hp g hg) hpre
  · rw [hr, List.dropWhile_cons, if_pos ha]
    have := dropWhile_length_le alphaMem rest
    simp
    omega

lemma masterMatch_suffix {s : List Char} {t : Tok} {r : List Char}
    (h : masterMatch s = some (t, r)) : ∃ u, s = u ++ r := by
  rcases masterMatch_cases h with ⟨p, hp, g, hg, hpre, hr, -⟩ | ⟨c, rest, hs, ha, -, hr⟩
  · rw [ List.isPrefixOf_iff_prefix] at hpre
    obtain ⟨t', ht'⟩ := hpre
    refine ⟨g, ?_⟩
    rw [hr, ← ht', List.drop_left]
  · exact ⟨s.takeWhile alphaMem, by rw [hr, List.takeWhile_append_dropWhile]⟩

lemma masterMatch_ins_none {u m l r : List Char} {f : Char}
    (hf : f ∈ ignoreChars) (hm : m = l ++ r) (hu : u ≠ [])
    (h : masterMatch (u ++ m) = none) : masterMatch (u ++ (l ++ f :: r)) = none := by
  obtain ⟨c, u', rfl⟩ := List.exists_cons_of_ne_nil hu
  cases h1 : keywordMatch keywordRules ((c :: u') ++ m) with
  | some tr =>
    simp only [masterMatch, h1] at h
    exact Option.noConfusion h
  | none =>
    simp only [masterMatch, h1] at h
    cases ha : alphaMem c
    · have h2 := keywordMatch_ins_none forms_ignore_free hf (hm ▸ h1)
      simp only [masterMatch, h2]
      rw [List.cons_append, nameMatch, if_neg (by simp [ha])]
    · rw [List.cons_append, nameMatch, if_pos ha] at h
      exact Option.noConfusion h

lemma masterMatch_ins_some {u m l r : List Char} {f : Char} {t : Tok}
    (hf : f ∈ ignoreChars) (hm : m = l ++ r)
    (h : masterMatch (u ++ m) = some (t, m)) :
    masterMatch (u ++ (l ++ f :: r)) = some (t, l ++ f :: r) := by
  have hu : u ≠ [] := by
    intro h0
    have := masterMatch_length h
    rw [h0] at this
    simp at this
  cases h1 : keywordMatch keywordRules (u ++ m) with
  | some tr =>
    obtain ⟨t0, r0⟩ := tr
    simp only [masterMatch, h1] at h
    have h2 : t0 = t ∧ r0 = m := by simpa using h
    have h3 := keywordMatch_ins_some forms_ignore_free hf hm
      (by rw [h1, h2.1, h2.2])
    simp only [masterMatch, h3]
  | none =>
    obtain ⟨c, u', rfl⟩ := List.exists_cons_of_ne_nil hu
    simp only [masterMatch, h1] at h
    rw [List.cons_append, nameMatch] at h
    cases ha : alphaMem c
    · rw [if_neg (by simp [ha])] at h
      exact Option.noConfusion h
    · rw [if_pos ha] at h
      have hT : Tok.NAME (String.mk ((c :: (u' ++ m)).takeWhile alphaMem)) = t ∧
          List.dropWhile alphaMem (c :: (u' ++ m)) = m := by simpa using h
      obtain ⟨hT, hdw⟩ := hT
      have htw : List.takeWhile alphaMem ((c :: u') ++ m) = c :: u' := by
        have hsplit := List.takeWhile_append_dropWhile alphaMem ((c :: u') ++ m)
        rw [List.cons_append, hdw] at hsplit
        rw [List.cons_append]
        exact List.append_cancel_right hsplit
      have hall : ∀ d ∈ c :: u', alphaMem d = true := by
        intro d hd
        exact @List.mem_takeWhile_imp Char alphaMem ((c :: u') ++ m) d (by rw [htw]; exact hd)
      have hmdw : List.dropWhile alphaMem m = m := by
        have h7 := @dropWhile_app alphaMem (c :: u') m hall
        rw [List.cons_append] at h7
        rw [← h7]
        exact hdw
      have hm'tw : List.takeWhile alphaMem (l ++ f :: r) = [] := by
        cases l with
        | nil =>
          rw [List.nil_append, List.takeWhile_cons,
            if_neg (by simp [ignore_nonalpha f hf])]
        | cons c0 l' =>
          have h5 : List.dropWhile alphaMem (c0 :: (l' ++ r)) = c0 :: (l' ++ r) := by
            rw [← List.cons_append, ← hm]
            exact hmdw
          have h6 : alphaMem c0 = false := dropWhile_self_head h5
          rw [List.cons_append, List.takeWhile_cons, if_neg (by simp [h6])]
      have hm'dw : List.dropWhile alphaMem (l ++ f :: r) = l ++ f :: r := by
        have := List.takeWhile_append_dropWhile alphaMem (l ++ f :: r)
        rw [hm'tw] at this
        simpa using this
      have hkm := keywordMatch_ins_none forms_ignore_free hf (hm ▸ h1)
      simp only [masterMatch, hkm]
      rw [List.cons_append, nameMatch, if_pos ha]
      have e1 : List.takeWhile alphaMem (c :: (u' ++ (l ++ f :: r))) = c :: u' := by
        rw [← List.cons_append, takeWhile_app hall, hm'tw, List.append_nil]
      have e2 : List.dropWhile alphaMem (c :: (u' ++ (l ++ f :: r))) = l ++ f :: r := by
        rw [← List.cons_append, dropWhile_app hall, hm'dw]
      rw [e1, e2, ← hT]
      have e3 : List.takeWhile alphaMem (c :: (u' ++ m)) = c :: u' := by
        rw [← List.cons_append]
        exact htw
      rw [e3]

/-! ### nextTok -/

lemma nextTok_ignore {c : Char} {s : List Char} (h : c ∈ ignoreChars) :
    nextTok (c :: s) = nextTok s := by
  simp [nextTok, h]

lemma nextTok_mm {c : Char} {s : List Char} {tr : Tok × List Char}
    (hc : c ∉ ignoreChars) (h : masterMatch (c :: s) = some tr) :
    nextTok (c :: s) = some tr := by
  simp [nextTok, hc, h]

lemma nextTok_skip {c : Char} {s : List Char}
    (hc : c ∉ ignoreChars) (h : masterMatch (c :: s) = none) :
    nextTok (c :: s) = nextTok s := by
  simp [nextTok, hc, h]

lemma nextTok_length {s : List Char} {t : Tok} {r : List Char}
    (h : nextTok s = some (t, r)) : r.length < s.length := by
  induction s with
  | nil => exact Option.noConfusion h
  | cons c s ih =>
    by_cases hc : c ∈ ignoreChars
    · rw [nextTok_ignore hc] at h
      have := ih h
      simp
      omega
    · cases hmm : masterMatch (c :: s) with
      | some tr =>
        rw [nextTok_mm hc hmm] at h
        obtain ⟨t0, r0⟩ := tr
        have h2 : t0 = t ∧ r0 = r := by simpa using h
        have := masterMatch_length hmm
        rw [h2.2] at this
        exact this
      | none =>
        rw [nextTok_skip hc hmm] at h
        have := ih h
        simp
        omega

lemma nextTok_suffix {s : List Char} {t : Tok} {r : List Char}
    (h : nextTok s = some (t, r)) : ∃ u, s = u ++ r := by
  induction s with
  | nil => exact Option.noConfusion h
  | cons c s ih =>
    by_cases hc : c ∈ ignoreChars
    · rw [nextTok_ignore hc] at h
      obtain ⟨u, hu⟩ := ih h
      exact ⟨c :: u, by rw [hu, List.cons_append]⟩
    · cases hmm : masterMatch (c :: s) with
      | some tr =>
        rw [nextTok_mm hc hmm] at h
        obtain ⟨t0, r0⟩ := tr
        have h2 : t0 = t ∧ r0 = r := by simpa using h
        have := masterMatch_suffix hmm
        rw [h2.2] at this
        exact this
      | none =>
        rw [nextTok_skip hc hmm] at h
        obtain ⟨u, hu⟩ := ih h
        exact ⟨c :: u, by rw [hu, List.cons_append]⟩

lemma nextTok_ins {u m l r : List Char} {f : Char} {t : Tok}
    (hf : f ∈ ignoreChars) (hm : m = l ++ r)
    (h : nextTok (u ++ m) = some (t, m)) :
    nextTok (u ++ (l ++ f :: r)) = some (t, l ++ f :: r) := by
  induction u with
  | nil =>
    exfalso
    have := nextTok_length h
    simp at this
  | cons a u' ih =>
    by_cases hc : a ∈ ignoreChars
    · rw [List.cons_append] at h ⊢
      rw [nextTok_ignore hc] at h ⊢
      exact ih h
    · rw [List.cons_append] at h ⊢
      cases hmm : masterMatch (a :: (u' ++ m)) with
      | some tr =>
        obtain ⟨t0, r0⟩ := tr
        rw [nextTok_mm hc hmm] at h
        have h2 : t0 = t ∧ r0 = m := by simpa using h
        have hmm' : masterMatch ((a :: u') ++ m) = some (t, m) := by
          rw [List.cons_append, hmm, h2.1, h2.2]
        have h3 := masterMatch_ins_some hf hm hmm'
        rw [List.cons_append] at h3
        exact nextTok_mm hc h3
      | none =>
        rw [nextTok_skip hc hmm] at h
        have hmm2 : masterMatch ((a :: u') ++ m) = none := by
          rw [List.cons_append]
          exact hmm
        have h3 := masterMatch_ins_none hf hm (by simp) hmm2
        rw [List.cons_append] at h3
        rw [nextTok_skip hc h3]
        exact ih h

/-! ### The fueled loop and the full token list -/

lemma lexGo_nil (n : Nat) : lexGo n [] = [] := by cases n <;> rfl

lemma lexGo_congr : ∀ {n m : Nat} {s : List Char}, s.length ≤ n → s.length ≤ m →
    lexGo n s = lexGo m s := by
  intro n
  induction n with
  | zero =>
    intro m s h1 h2
    have hs : s = [] := List.length_eq_zero.mp (Nat.le_zero.mp h1)
    subst hs
    rw [lexGo_nil, lexGo_nil]
  | succ n ih =>
    intro m s h1 h2
    cases m with
    | zero =>
      have hs : s = [] := List.length_eq_zero.mp (Nat.le_zero.mp h2)
      subst hs
      rw [lexGo_nil, lexGo_nil]
    | succ m' =>
      cases s with
      | nil => rw [lexGo_nil, lexGo_nil]
      | cons c rest =>
        cases hnt : nextTok (c :: rest) with
        | none => simp only [lexGo, hnt]
        | some tr =>
          obtain ⟨t, r⟩ := tr
          have hr := nextTok_length hnt
          simp only [lexGo, hnt]
          simp only [List.length_cons] at h1 h2 hr
          rw [@ih m' r (by omega) (by omega)]

lemma lexList_step {s : List Char} {t : Tok} {r : List Char}
    (h : nextTok s = some (t, r)) : lexList s = t :: lexList r := by
  unfold lexList
  cases s with
  | nil => exact Option.noConfusion h
  | cons c rest =>
    have hr := nextTok_length h
    simp only [List.length_cons, lexGo, h]
    simp only [List.length_cons] at hr
    rw [lexGo_congr (by omega) (le_refl r.length)]

lemma lexList_none {s : List Char} (h : nextTok s = none) : lexList s = [] := by
  unfold lexList
  cases s with
  | nil => rfl
  | cons c rest => simp only [List.length_cons, lexGo, h]

/-! ### Token-boundary insertion of an ignored character -/

lemma Reach_suffix {s r : List Char} (h : Reach s r) : ∃ w, s = w ++ r := by
  induction h with
  | refl s => exact ⟨[], rfl⟩
  | tok hnt _ ih =>
    obtain ⟨u, hu⟩ := nextTok_suffix hnt
    obtain ⟨w, hw⟩ := ih
    exact ⟨u ++ w, by rw [hu, hw, List.append_assoc]⟩

lemma lexList_ins {f : Char} (hf : f ∈ ignoreChars) :
    ∀ {s r : List Char}, Reach s r → ∀ l, s = l ++ r → lexList (l ++ f :: r) = lexList s := by
  intro s r h
  induction h with
  | refl s =>
    intro l hl
    have hl0 : l = [] := by
      have hlen := congrArg List.length hl
      simp at hlen
      exact hlen
    subst hl0
    simp only [List.nil_append]
    cases hnt : nextTok s with
    | none =>
      rw [lexList_none hnt, lexList_none (by rw [nextTok_ignore hf]; exact hnt)]
    | some tr =>
      obtain ⟨t, r0⟩ := tr
      rw [lexList_step hnt, lexList_step (show nextTok (f :: s) = some (t, r0) by
        rw [nextTok_ignore hf]; exact hnt)]
  | @tok s0 m r0 t0 hnt hr ih =>
    intro l hl
    obtain ⟨u, hu⟩ := nextTok_suffix hnt
    obtain ⟨w, hw⟩ := Reach_suffix hr
    have hlu : l = u ++ w := by
      have h1 : (u ++ w) ++ r0 = l ++ r0 := by
        rw [List.append_assoc, ← hw, ← hu, hl]
      exact (List.append_cancel_right h1).symm
    subst hlu
    have hnt' : nextTok (u ++ m) = some (t0, m) := by rw [← hu]; exact hnt
    have h2 := nextTok_ins hf hw hnt'
    rw [List.append_assoc, lexList_step h2, ih w hw, hu, lexList_step hnt']

/-! ### Concrete keyword steps of the lexer -/

lemma nextTok_find (rest : List Char) :
    nextTok ('查' :: '询' :: rest) = some (Tok.FIND, rest) := by
  simp +decide [nextTok, masterMatch, keywordMatch, keywordRules, tryForms, nameMatch,
    List.isPrefixOf]

lemma nextTok_cal (rest : List Char) :
    nextTok ('书' :: '法' :: '家' :: rest) = some (Tok.CALLIGRAPHER, rest) := by
  simp +decide [nextTok, masterMatch, keywordMatch, keywordRules, tryForms, nameMatch,
    List.isPrefixOf]

lemma nextTok_info (rest : List Char) :
    nextTok ('信' :: '息' :: rest) = some (Tok.INFO, rest) := by
  simp +decide [nextTok, masterMatch, keywordMatch, keywordRules, tryForms, nameMatch,
    List.isPrefixOf]

lemma nextTok_tangdai (rest : List Char) :
    nextTok ('唐' :: '代' :: rest) = some (Tok.DYNASTY "唐代", rest) := by
  simp +decide [nextTok, masterMatch, keywordMatch, keywordRules, tryForms, nameMatch,
    List.isPrefixOf, normalizeDynasty, dynastyMap]

lemma nextTok_tangchao (rest : List Char) :
    nextTok ('唐' :: '朝' :: rest) = some (Tok.DYNASTY "唐代", rest) := by
  simp +decide [nextTok, masterMatch, keywordMatch, keywordRules, tryForms, nameMatch,
    List.isPrefixOf, normalizeDynasty, dynastyMap]

/-! ### Lexing an abstract NAME run -/

lemma keywordMatch_fail {x : List Char}
    (h : ∀ p ∈ keywordRules, ∀ g ∈ p.1, g.isPrefixOf x = false) :
    keywordMatch keywordRules x = none :=
  keywordMatch_none_iff.mpr (fun p hp => tryForms_none_iff.mpr (h p hp))

lemma prefix_all_mem {g x : List Char} (h : g.isPrefixOf x = true) : ∀ c ∈ g, c ∈ x := by
  rw [ List.isPrefixOf_iff_prefix] at h
  obtain ⟨t, ht⟩ := h
  intro c hc
  rw [← ht]
  exact List.mem_append_left t hc

/-- No keyword alternative can match inside a run of alphabet characters
that extends to the end of the input: every alternative contains a
character outside the closed alphabet. -/
lemma forms_fail_end {K : List Char} (hK : ∀ c ∈ K, alphaMem c = true) :
    ∀ p ∈ keywordRules, ∀ g ∈ p.1, g.isPrefixOf K = false := by
  intro p hp g hg
  cases hq : g.isPrefixOf K
  · rfl
  · exfalso
    obtain ⟨c, hcg, hca⟩ := forms_nonalpha p hp g hg
    have := hK c (prefix_all_mem hq c hcg)
    rw [this] at hca
    exact Bool.noConfusion hca

/-- No keyword alternative splits as a nonempty all-alphabet prefix
followed by a prefix of `信息`. -/
lemma bridge_info : ∀ p ∈ keywordRules, ∀ g ∈ p.1, ∀ j ∈ List.range g.length,
    0 < j → ((g.take j).all alphaMem = true → (g.drop j).isPrefixOf ['信', '息'] = false) := by
  decide

/-- No keyword alternative can match at the start of an all-alphabet run
`K` that is followed by the literal `信息`. -/
lemma forms_fail_before_info {K : List Char} (hne : K ≠ [])
    (hK : ∀ c ∈ K, alphaMem c = true) :
    ∀ p ∈ keywordRules, ∀ g ∈ p.1, g.isPrefixOf (K ++ ['信', '息']) = false := by
  intro p hp g hg
  cases hq : g.isPrefixOf (K ++ ['信', '息'])
  · rfl
  · exfalso
    rw [ List.isPrefixOf_iff_prefix] at hq
    obtain ⟨t, ht⟩ := hq
    rcases le_or_lt g.length K.length with hl | hl
    · have h1 : List.take g.length (g ++ t) = g := List.take_left g t
      have h2 : List.take g.length (K ++ ['信', '息']) = List.take g.length K := by
        rw [List.take_append_eq_append_take]
        simp [Nat.sub_eq_zero_of_le hl]
      have hgk : g = List.take g.length K := by rw [← h2, ← ht, h1]
      obtain ⟨c, hcg, hca⟩ := forms_nonalpha p hp g hg
      have hcK : c ∈ K := List.mem_of_mem_take (hgk ▸ hcg)
      have := hK c hcK
      rw [this] at hca
      exact Bool.noConfusion hca
    · have h1 : List.take K.length (g ++ t) = List.take K.length g := by
        rw [List.take_append_eq_append_take]
        simp [Nat.sub_eq_zero_of_le (Nat.le_of_lt hl)]
      have h2 : List.take K.length (K ++ ['信', '息']) = K := List.take_left K _
      have hKg : List.take K.length g = K := by rw [← h1, ht, h2]
      have h3 : List.drop K.length (g ++ t) = List.drop K.length g ++ t := by
        rw [List.drop_append_eq_append_drop]
        simp [Nat.sub_eq_zero_of_le (Nat.le_of_lt hl)]
      have h4 : List.drop K.length (K ++ ['信', '息']) = ['信', '息'] := List.drop_left K _
      have h5 : List.drop K.length g ++ t = ['信', '息'] := by rw [← h3, ht, h4]
      have h6 : (List.drop K.length g).isPrefixOf ['信', '息'] = true := by
        rw [ List.isPrefixOf_iff_prefix]
        exact ⟨t, h5⟩
      have h7 : (List.take K.length g).all alphaMem = true := by
        rw [hKg]
        exact List.all_eq_true.mpr hK
      have h8 := bridge_info p hp g hg K.length (List.mem_range.mpr hl)
        (List.length_pos.mpr hne) h7
      rw [h6] at h8
      exact Bool.noConfusion h8

/-- The greedy `CHINESE_NAME` step: an all-alphabet nonempty run `K`,
followed by input whose first character is outside the alphabet, lexes
to one `NAME` token with value exactly `K`, provided no keyword
alternative matches at this position. -/
lemma nextTok_name {K s : List Char} (hne : K ≠ [])
    (hK : ∀ c ∈ K, alphaMem c = true)
    (hs : s.takeWhile alphaMem = [])
    (hfail : ∀ p ∈ keywordRules, ∀ g ∈ p.1, g.isPrefixOf (K ++ s) = false) :
    nextTok (K ++ s) = some (Tok.NAME (String.mk K), s) := by
  obtain ⟨c, K', rfl⟩ := List.exists_cons_of_ne_nil hne
  have hca : alphaMem c = true := hK c (List.mem_cons_self c K')
  have hci : c ∉ ignoreChars := by
    intro hmem
    have := ignore_nonalpha c hmem
    rw [hca] at this
    exact Bool.noConfusion this
  have hkm : keywordMatch keywordRules ((c :: K') ++ s) = none := keywordMatch_fail hfail
  have hsdw : List.dropWhile alphaMem s = s := by
    have := List.takeWhile_append_dropWhile alphaMem s
    rw [hs] at this
    simpa using this
  have hmm : masterMatch ((c :: K') ++ s) = some (Tok.NAME (String.mk (c :: K')), s) := by
    simp only [masterMatch, hkm]
    rw [List.cons_append, nameMatch, if_pos hca]
    have e1 : List.takeWhile alphaMem (c :: (K' ++ s)) = c :: K' := by
      rw [← List.cons_append, takeWhile_app hK, hs, List.append_nil]
    have e2 : List.dropWhile alphaMem (c :: (K' ++ s)) = s := by
      rw [← List.cons_append, dropWhile_app hK, hsdw]
    rw [e1, e2]
  rw [List.cons_append] at hmm ⊢
  exact nextTok_mm hci hmm

/-! ### Lexing whole sentences -/

lemma lex_find_name {K : List Char} (hne : K ≠ []) (hK : ∀ c ∈ K, alphaMem c = true) :
    lexList ('查' :: '询' :: K) = [Tok.FIND, Tok.NAME (String.mk K)] := by
  rw [lexList_step (nextTok_find K)]
  have h1 : nextTok K = some (Tok.NAME (String.mk K), []) := by
    have h2 := @nextTok_name K [] hne hK rfl
      (by intro p hp g hg; rw [List.append_nil]; exact forms_fail_end hK p hp g hg)
    rw [List.append_nil] at h2
    exact h2
  rw [lexList_step h1]
  rfl

lemma lex_find_cal_name {K : List Char} (hne : K ≠ []) (hK : ∀ c ∈ K, alphaMem c = true) :
    lexList ('查' :: '询' :: '书' :: '法' :: '家' :: K) =
      [Tok.FIND, Tok.CALLIGRAPHER, Tok.NAME (String.mk K)] := by
  rw [lexList_step (nextTok_find ('书' :: '法' :: '家' :: K)),
    lexList_step (nextTok_cal K)]
  have h1 : nextTok K = some (Tok.NAME (String.mk K), []) := by
    have h2 := @nextTok_name K [] hne hK rfl
      (by intro p hp g hg; rw [List.append_nil]; exact forms_fail_end hK p hp g hg)
    rw [List.append_nil] at h2
    exact h2
  rw [lexList_step h1]
  rfl

lemma lex_find_name_info {K : List Char} (hne : K ≠ []) (hK : ∀ c ∈ K, alphaMem c = true) :
    lexList ('查' :: '询' :: (K ++ ['信', '息'])) =
      [Tok.FIND, Tok.NAME (String.mk K), Tok.INFO] := by
  rw [lexList_step (nextTok_find (K ++ ['信', '息']))]
  have hs : List.takeWhile alphaMem ['信', '息'] = [] := by
    rw [List.takeWhile_cons, if_neg (by decide)]
  rw [lexList_step (nextTok_name hne hK hs (forms_fail_before_info hne hK))]
  rw [lexList_step (nextTok_info [])]
  rfl

/-! ### String plumbing -/

lemma mk_toList (K : String) : String.mk K.toList = K := rfl

lemma toList_find_concat (K : String) :
    ("查询" ++ K).toList = '查' :: '询' :: K.toList := by
  show ("查询" ++ K).data = '查' :: '询' :: K.data
  rw [String.data_append]
  rfl

lemma toList_find_cal_concat (K : String) :
    ("查询书法家" ++ K).toList = '查' :: '询' :: '书' :: '法' :: '家' :: K.toList := by
  show ("查询书法家" ++ K).data = _
  rw [String.data_append]
  rfl

lemma toList_find_info_concat (K : String) :
    ("查询" ++ K ++ "信息").toList = '查' :: '询' :: (K.toList ++ ['信', '息']) := by
  show (("查询" ++ K) ++ "信息").data = _
  rw [String.data_append, String.data_append]
  rfl

lemma ne_empty_of_data {r : String} (h : r.data ≠ []) : r ≠ "" := by
  intro h0
  rw [h0] at h
  exact h rfl

lemma data_append_ne {a b : String} (h : a.data ≠ []) : (a ++ b).data ≠ [] := by
  rw [String.data_append]
  intro h0
  exact h (List.append_eq_nil.mp h0).1

/-! ### Unfolding the public entry point -/

lemma parse_none {s : String} (h : parseTokens (lexList s.toList) = none) :
    parse s = notUnderstood := by
  unfold parse
  rw [h]

lemma parse_some {s : String} {q : Query} (h : parseTokens (lexList s.toList) = some q)
    (hne : resolve q ≠ "") : parse s = resolve q := by
  unfold parse
  rw [h]
  simp [hne]

lemma eq_empty_of_data_nil {a : String} (h : a.data = []) : a = "" := by
  cases a with
  | mk d =>
    cases h
    rfl

lemma append_ne_of_left (a b : String) (h : a ≠ "") : a ++ b ≠ "" := by
  intro h0
  have hd := congrArg String.data h0
  rw [String.data_append] at hd
  exact h (eq_empty_of_data_nil (List.append_eq_nil.mp hd).1)

/-- Shape 3 end-to-end: `查询` followed by any nonempty all-alphabet run
`K` lexes to `FIND NAME(K)` and resolves through `p_find_direct`. -/
lemma parse_shape3 {K : String} (hne : K.toList ≠ [])
    (hK : ∀ c ∈ K.toList, alphaMem c = true)
    (hres : renderFindDirect K ≠ "") :
    parse ("查询" ++ K) = renderFindDirect K := by
  have hlex : lexList ("查询" ++ K).toList = [Tok.FIND, Tok.NAME K] := by
    rw [toList_find_concat, lex_find_name hne hK, mk_toList]
  have hpt : parseTokens (lexList ("查询" ++ K).toList) = some (Query.direct K) := by
    rw [hlex]
    rfl
  exact parse_some hpt hres

/-! ### Infix embedding helpers for rendered templates -/

lemma within_append_left {x : List Char} {a : String} (b : String)
    (h : x <:+: a.data) : x <:+: (a ++ b).data := by
  rw [String.data_append]
  obtain ⟨s, t, hst⟩ := h
  exact ⟨s, t ++ b.data, by rw [← hst]; simp [List.append_assoc]⟩

lemma within_append_right {x : List Char} (a : String) {b : String}
    (h : x <:+: b.data) : x <:+: (a ++ b).data := by
  rw [String.data_append]
  obtain ⟨s, t, hst⟩ := h
  exact ⟨a.data ++ s, t, by rw [← hst]; simp [List.append_assoc]⟩

lemma within_self_suffix (a x : String) : x.data <:+: (a ++ x).data :=
  ⟨a.data, [], by simp [String.data_append]⟩

lemma joinSep_cons_cons (sep x y : String) (ys : List String) :
    joinSep sep (x :: y :: ys) = x ++ sep ++ joinSep sep (y :: ys) := rfl

lemma mem_within_joinSep (sep : String) : ∀ (ws : List String) (w : String), w ∈ ws →
    w.data <:+: (joinSep sep ws).data := by
  intro ws
  induction ws with
  | nil =>
    intro w hw
    simp at hw
  | cons x xs ih =>
    intro w hw
    cases xs with
    | nil =>
      have hx : w = x := by simpa using hw
      subst hx
      exact ⟨[], [], by simp [joinSep]⟩
    | cons y ys =>
      rcases List.mem_cons.mp hw with rfl | hw2
      · refine ⟨[], (sep ++ joinSep sep (y :: ys)).data, ?_⟩
        show [] ++ w.data ++ (sep ++ joinSep sep (y :: ys)).data =
          (joinSep sep (w :: y :: ys)).data
        rw [joinSep_cons_cons]
        simp [String.data_append, List.append_assoc]
      · obtain ⟨s, t, hst⟩ := ih w hw2
        refine ⟨(x ++ sep).data ++ s, t, ?_⟩
        show (x ++ sep).data ++ s ++ w.data ++ t = (joinSep sep (x :: y :: ys)).data
        rw [joinSep_cons_cons]
        rw [String.data_append, String.data_append, String.data_append]
        rw [List.append_assoc, List.append_assoc, List.append_assoc, ← hst]
        simp [List.append_assoc]

/-! ### Claims -/

/-- C1: the public entry point `parse` is total: for every input string it
returns a string — either the resolver's rendered answer for the uniquely
matched shape (which covers the shape-specific not-found templates), or
the fixed not-understood string.  In this embedding no exception can
occur, matching the `try/except` guarantee of grammar.py 262-270. -/
theorem claim_C1_parse_total (s : String) :
    parse s = notUnderstood ∨
      ∃ q : Query, parseTokens (lexList s.toList) = some q ∧ parse s = resolve q := by
  cases h : parseTokens (lexList s.toList) with
  | none => exact Or.inl (parse_none h)
  | some q =>
    by_cases he : resolve q = ""
    · left
      unfold parse
      rw [h]
      simp [he]
    · exact Or.inr ⟨q, rfl, parse_some h he⟩

/-- C2: whenever the token sequence of the input matches none of the
seven shapes (`parseTokens` yields `none` — including leftover tokens
after a matching prefix and the empty token sequence), `parse` returns
the fixed string 无法理解您的查询，请尝试重新表述. -/
theorem claim_C2_not_understood (s : String)
    (h : parseTokens (lexList s.toList) = none) :
    parse s = "无法理解您的查询，请尝试重新表述" :=
  parse_none h

/-- Witness for C2 at the inputs 查询书法家王羲之作品 (tokens
`FIND CALLIGRAPHER NAME WORK`, a matching prefix with a leftover token)
and the empty string (empty token sequence). -/
theorem claim_C2_witness :
    lexList "查询书法家王羲之作品".toList =
      [Tok.FIND, Tok.CALLIGRAPHER, Tok.NAME "王羲之", Tok.WORK] ∧
    parseTokens (lexList "查询书法家王羲之作品".toList) = none ∧
    parse "查询书法家王羲之作品" = "无法理解您的查询，请尝试重新表述" ∧
    parseTokens (lexList "".toList) = none ∧
    parse "" = "无法理解您的查询，请尝试重新表述" := by
  refine ⟨by decide, by decide, claim_C2_not_understood _ (by decide), by decide,
    claim_C2_not_understood _ (by decide)⟩

/-- C9: 东晋 is its own canonical dynasty value: the synonym map rewrites
only the 朝-suffixed forms (晋朝 ↦ 晋代) and leaves 东晋 alone, so the
东晋 roster lists 王羲之 while both 晋代 and 晋朝 produce the empty-roster
template for 晋代. -/
theorem claim_C9_dongjin_canonical :
    normalizeDynasty "东晋" = "东晋" ∧
    normalizeDynasty "晋朝" = "晋代" ∧
    parse "查询东晋书法家" = "🏛️ 东晋著名书法家：\n   王羲之（行书）" ∧
    parse "查询晋代书法家" = "❌ 未找到晋代的书法家记录" ∧
    parse "查询晋朝书法家" = "❌ 未找到晋代的书法家记录" := by
  refine ⟨by decide, by decide, by decide, by decide, by decide⟩

/-- C10: style names lie inside the closed NAME alphabet, so 查询行书
lexes as `FIND NAME(行书)` and shape 3 — which consults only works lists
and calligrapher keys — returns the generic not-found template; the
style-detail record requires the explicit shape 查询风格行书. -/
theorem claim_C10_style_name_direct :
    lexList "查询行书".toList = [Tok.FIND, Tok.NAME "行书"] ∧
    parse "查询行书" = "❌ 未找到'行书'的相关信息" ∧
    parse "查询风格行书" =
      "🖋️ 行书书体信息：\n   特点：笔势流畅、动静相宜，介于楷书和草书之间\n   代表书家：王羲之、苏轼、颜真卿\n   艺术特征：用笔灵活、结构自如、书写便捷" := by
  refine ⟨by decide, by decide, by decide⟩

/-- C8: for shape 5 (`FIND NAME STYLE`), rule 5 resolves an existing
calligrapher by looking the calligrapher's `style` up in the style table
and substitutes the placeholder 暂无详细描述 when that secondary lookup
misses (the method reads whatever instance tables it is given, so the
first three parts are stated over arbitrary tables; on the shipped data
the secondary lookup never misses); on a calligrapher miss it renders
the style-info-not-found template naming the input.  The last two parts
tie rule 5 into the full pipeline on the shipped tables. -/
theorem claim_C8_calligrapher_style :
    (∀ (cs : List (String × Calligrapher)) (ss : List (String × Style))
        (c : String) (info : Calligrapher),
      lookupTable cs c = some info → lookupTable ss info.style = none →
        renderCalligrapherStyleGen cs ss c =
          "🎯 " ++ c ++ "的书法风格：\n   擅长" ++ info.style ++
          "书体\n   风格特点：暂无详细描述") ∧
    (∀ (cs : List (String × Calligrapher)) (ss : List (String × Style))
        (c : String) (info : Calligrapher) (si : Style),
      lookupTable cs c = some info → lookupTable ss info.style = some si →
        renderCalligrapherStyleGen cs ss c =
          "🎯 " ++ c ++ "的书法风格：\n   擅长" ++ info.style ++
          "书体\n   风格特点：" ++ si.description) ∧
    (∀ (cs : List (String × Calligrapher)) (ss : List (String × Style)) (c : String),
      lookupTable cs c = none →
        renderCalligrapherStyleGen cs ss c = "❌ 未找到" ++ c ++ "的书法风格信息") ∧
    parse "查询苏轼风格" =
      "🎯 苏轼的书法风格：\n   擅长行书书体\n   风格特点：笔势流畅、动静相宜，介于楷书和草书之间" ∧
    parse "查询兰亭序风格" = "❌ 未找到兰亭序的书法风格信息" := by
  refine ⟨?_, ?_, ?_, by decide, by decide⟩
  · intro cs ss c info h1 h2
    unfold renderCalligrapherStyleGen
    rw [h1]
    simp [h2]
    rw [String.append_assoc]
    congr 1
  · intro cs ss c info si h1 h2
    unfold renderCalligrapherStyleGen
    rw [h1]
    simp [h2]
  · intro cs ss c h1
    unfold renderCalligrapherStyleGen
    rw [h1]

/-- Witness for C8: a one-row table whose calligrapher practices a style
absent from an empty style table takes the placeholder branch. -/
theorem claim_C8_witness :
    renderCalligrapherStyleGen demoCalligraphers demoStyles "甲" =
      "🎯 甲的书法风格：\n   擅长篆书书体\n   风格特点：暂无详细描述" := by
  have h := claim_C8_calligrapher_style.1 demoCalligraphers demoStyles "甲"
    (Calligrapher.mk "唐代" "篆书" [] "") (by decide) (by decide)
  exact h.trans (by decide)

/-- C7 fails as stated: removing the filler 的 that separates the two
NAME runs of 查询王羲之的兰亭序 merges them into the single NAME token
王羲之兰亭序, turning a syntax error (not understood) into a shape-3
not-found answer, so removal can change the resolved output. -/
theorem claim_C7_counterexample :
    parse "查询王羲之的兰亭序" = "无法理解您的查询，请尝试重新表述" ∧
    parse "查询王羲之兰亭序" = "❌ 未找到'王羲之兰亭序'的相关信息" ∧
    parse "查询王羲之的兰亭序" ≠ parse "查询王羲之兰亭序" := by
  refine ⟨by decide, by decide, by decide⟩

/-- C7 (amended): inserting the filler 的 — or any ignored whitespace
character — at a token boundary of a sentence never changes the resolved
output (the filler never produces a token); removal is not invariant,
since deleting a 的 can merge two adjacent NAME runs. -/
theorem claim_C7_amended (f : Char) (hf : f ∈ ignoreChars) (l r : List Char)
    (hb : Reach (l ++ r) r) :
    parse (String.mk (l ++ f :: r)) = parse (String.mk (l ++ r)) := by
  unfold parse
  have h1 : (String.mk (l ++ f :: r)).toList = l ++ f :: r := rfl
  have h2 : (String.mk (l ++ r)).toList = l ++ r := rfl
  rw [h1, h2, lexList_ins hf hb l rfl]

/-- Witness for C7 (amended): inserting 的 at the boundary between the
NAME and WORK tokens of 查询王羲之作品 leaves the output unchanged —
the claim's own example. -/
theorem claim_C7_witness : parse "查询王羲之的作品" = parse "查询王羲之作品" := by
  have h1 : nextTok "查询王羲之作品".toList = some (Tok.FIND, "王羲之作品".toList) := by
    decide
  have h2 : nextTok "王羲之作品".toList = some (Tok.NAME "王羲之", "作品".toList) := by
    decide
  have hb : Reach ("查询王羲之".toList ++ "作品".toList) "作品".toList := by
    have he : "查询王羲之".toList ++ "作品".toList = "查询王羲之作品".toList := by decide
    rw [he]
    exact Reach.tok h1 (Reach.tok h2 (Reach.refl "作品".toList))
  have h := claim_C7_amended '的' (by decide) "查询王羲之".toList "作品".toList hb
  have e1 : String.mk ("查询王羲之".toList ++ '的' :: "作品".toList) = "查询王羲之的作品" := by
    decide
  have e2 : String.mk ("查询王羲之".toList ++ "作品".toList) = "查询王羲之作品" := by
    decide
  rw [e1, e2] at h
  exact h

/-- C3 fails as stated at its own example: 未知人物 lies entirely outside
the closed NAME alphabet, so 查询未知人物 lexes to the bare token list
`[FIND]`, no shape matches, and the output is the not-understood string —
not the generic not-found template the claim requires. -/
theorem claim_C3_counterexample :
    parse "查询未知人物" = "无法理解您的查询，请尝试重新表述" ∧
    lexList "查询未知人物".toList = [Tok.FIND] ∧
    parse "查询未知人物" ≠ "❌ 未找到'未知人物'的相关信息" := by
  refine ⟨by decide, by decide, by decide⟩

/-- C3 (amended): for every name `K` that lexes as a single NAME token
(nonempty, all characters in the closed alphabet) and is absent from
both the calligrapher table and every works sequence, 查询K yields the
generic not-found template containing `K` verbatim; a name outside the
closed alphabet such as 未知人物 instead produces no NAME token and the
sentence resolves to the not-understood string. -/
theorem claim_C3_amended (K : String) (hne : K.toList ≠ [])
    (hK : ∀ c ∈ K.toList, alphaMem c = true)
    (habs : ∀ p ∈ calligraphers, K ≠ p.1 ∧ p.2.works.contains K = false) :
    parse ("查询" ++ K) = "❌ 未找到'" ++ K ++ "'的相关信息" := by
  have hfind : calligraphers.find? (fun p => p.2.works.contains K) = none := by
    rw [List.find?_eq_none]
    intro p hp
    rw [(habs p hp).2]
    simp
  have hlook : lookupTable calligraphers K = none := by
    unfold lookupTable
    have h2 : calligraphers.find? (fun p => p.1 == K) = none := by
      rw [List.find?_eq_none]
      intro p hp
      simp
      intro he
      exact (habs p hp).1 he.symm
    rw [h2]
    rfl
  have hres : renderFindDirect K = "❌ 未找到'" ++ K ++ "'的相关信息" := by
    unfold renderFindDirect
    rw [hfind, hlook]
  have hne2 : renderFindDirect K ≠ "" := by
    rw [hres]
    repeat' apply append_ne_of_left
    decide
  rw [parse_shape3 hne hK hne2, hres]

/-- Witness for C3 (amended): 王颜 is a NAME-alphabet run that names no
calligrapher and no work. -/
theorem claim_C3_witness : parse "查询王颜" = "❌ 未找到'王颜'的相关信息" := by
  have h := claim_C3_amended "王颜" (by decide) (by decide) (by decide)
  have e : ("查询" ++ "王颜" : String) = "查询王颜" := by decide
  rw [e] at h
  exact h.trans (by decide)

/-- C4: shape 3 resolves by scanning every calligrapher's works list
first (in dict order), rendering the work-attribution template on a hit;
only when no works entry matches does it fall back to an exact-key
calligrapher lookup; and concretely 查询兰亭序 attributes 兰亭序 to
王羲之 with style 行书 and dynasty 东晋. -/
theorem claim_C4_find_direct_order :
    (∀ K : String, K.toList ≠ [] → (∀ c ∈ K.toList, alphaMem c = true) →
      (∀ (cname : String) (info : Calligrapher),
        calligraphers.find? (fun p => p.2.works.contains K) = some (cname, info) →
        parse ("查询" ++ K) =
          "📜 " ++ K ++ "是" ++ cname ++ "的代表作\n   书体：" ++ info.style ++
          "\n   朝代：" ++ info.dynasty ++ "\n   书法家简介：" ++ info.description) ∧
      (calligraphers.find? (fun p => p.2.works.contains K) = none →
        ∀ info : Calligrapher, lookupTable calligraphers K = some info →
        parse ("查询" ++ K) =
          "📖 " ++ K ++ "书法家信息：\n   朝代：" ++ info.dynasty ++
          "\n   擅长书体：" ++ info.style ++
          "\n   代表作品：" ++ joinSep "、" info.works ++
          "\n   简介：" ++ info.description)) ∧
    parse "查询兰亭序" =
      "📜 兰亭序是王羲之的代表作\n   书体：行书\n   朝代：东晋\n   书法家简介：书圣，行书代表作《兰亭序》被誉为天下第一行书" := by
  refine ⟨?_, by decide⟩
  intro K hne hK
  constructor
  · intro cname info hfind
    have hres : renderFindDirect K =
        "📜 " ++ K ++ "是" ++ cname ++ "的代表作\n   书体：" ++ info.style ++
        "\n   朝代：" ++ info.dynasty ++ "\n   书法家简介：" ++ info.description := by
      unfold renderFindDirect
      rw [hfind]
    have hne2 : renderFindDirect K ≠ "" := by
      rw [hres]
      repeat' apply append_ne_of_left
      decide
    rw [parse_shape3 hne hK hne2, hres]
  · intro hfind info hlook
    have hres : renderFindDirect K =
        "📖 " ++ K ++ "书法家信息：\n   朝代：" ++ info.dynasty ++
        "\n   擅长书体：" ++ info.style ++
        "\n   代表作品：" ++ joinSep "、" info.works ++
        "\n   简介：" ++ info.description := by
      unfold renderFindDirect
      rw [hfind, hlook]
    have hne2 : renderFindDirect K ≠ "" := by
      rw [hres]
      repeat' apply append_ne_of_left
      decide
    rw [parse_shape3 hne hK hne2, hres]

/-- Witness for C4: 黄庭经 appears in 王羲之's works, so the works scan
wins and the work-attribution template is rendered. -/
theorem claim_C4_witness :
    parse "查询黄庭经" =
      "📜 黄庭经是王羲之的代表作\n   书体：行书\n   朝代：东晋\n   书法家简介：书圣，行书代表作《兰亭序》被誉为天下第一行书" := by
  have h := (claim_C4_find_direct_order.1 "黄庭经" (by decide) (by decide)).1 "王羲之"
    (Calligrapher.mk "东晋" "行书" ["兰亭序", "黄庭经"]
      "书圣，行书代表作《兰亭序》被誉为天下第一行书") (by decide)
  have e : ("查询" ++ "黄庭经" : String) = "查询黄庭经" := by decide
  rw [e] at h
  exact h.trans (by decide)

/-- C5: shape 7 (`FIND NAME INFO`) is an alias of shape 1
(`FIND ROLE NAME`): for every NAME-alphabet run `K` the sentences
查询书法家K and 查询K信息 resolve to identical strings (identical on
miss as well), and when `K` is in the calligrapher table that common
output contains K's dynasty, style, every entry of K's works, and K's
description. -/
theorem claim_C5_info_alias (K : String) (hne : K.toList ≠ [])
    (hK : ∀ c ∈ K.toList, alphaMem c = true) :
    parse ("查询书法家" ++ K) = parse ("查询" ++ K ++ "信息") ∧
    ∀ info : Calligrapher, lookupTable calligraphers K = some info →
      info.dynasty.toList <:+: (parse ("查询书法家" ++ K)).toList ∧
      info.style.toList <:+: (parse ("查询书法家" ++ K)).toList ∧
      (∀ w ∈ info.works, w.toList <:+: (parse ("查询书法家" ++ K)).toList) ∧
      info.description.toList <:+: (parse ("查询书法家" ++ K)).toList := by
  have hlex1 : lexList ("查询书法家" ++ K).toList =
      [Tok.FIND, Tok.CALLIGRAPHER, Tok.NAME K] := by
    rw [toList_find_cal_concat, lex_find_cal_name hne hK, mk_toList]
  have hlex2 : lexList ("查询" ++ K ++ "信息").toList =
      [Tok.FIND, Tok.NAME K, Tok.INFO] := by
    rw [toList_find_info_concat, lex_find_name_info hne hK, mk_toList]
  have hpt1 : parseTokens (lexList ("查询书法家" ++ K).toList) =
      some (Query.calligrapherDetail K) := by
    rw [hlex1]
    rfl
  have hpt2 : parseTokens (lexList ("查询" ++ K ++ "信息").toList) =
      some (Query.calligrapherInfo K) := by
    rw [hlex2]
    rfl
  constructor
  · unfold parse
    rw [hpt1, hpt2]
    rfl
  · intro info hlook
    have hres : resolve (Query.calligrapherDetail K) =
        "📖 " ++ K ++ "书法家信息：\n   朝代：" ++ info.dynasty ++
        "\n   擅长书体：" ++ info.style ++ "\n   代表作品：" ++
        joinSep "、" info.works ++ "\n   简介：" ++ info.description := by
      show renderCalligrapherDetail K = _
      unfold renderCalligrapherDetail
      rw [hlook]
    have hne2 : resolve (Query.calligrapherDetail K) ≠ "" := by
      rw [hres]
      repeat' apply append_ne_of_left
      decide
    rw [parse_some hpt1 hne2, hres]
    refine ⟨?_, ?_, ?_, ?_⟩
    · show info.dynasty.data <:+: _
      exact within_append_left _ (within_append_left _ (within_append_left _
        (within_append_left _ (within_append_left _ (within_append_left _
        (within_self_suffix _ _))))))
    · show info.style.data <:+: _
      exact within_append_left _ (within_append_left _ (within_append_left _
        (within_append_left _ (within_self_suffix _ _))))
    · intro w hw
      show w.data <:+: _
      exact within_append_left _ (within_append_left _
        (within_append_right _ (mem_within_joinSep "、" info.works w hw)))
    · show info.description.data <:+: _
      exact within_self_suffix _ _

/-- Witness for C5 at 王羲之. -/
theorem claim_C5_witness : parse "查询书法家王羲之" = parse "查询王羲之信息" := by
  have h := (claim_C5_info_alias "王羲之" (by decide) (by decide)).1
  have e1 : ("查询书法家" ++ "王羲之" : String) = "查询书法家王羲之" := by decide
  have e2 : ("查询" ++ "王羲之" ++ "信息" : String) = "查询王羲之信息" := by decide
  rw [e1, e2] at h
  exact h

/-- C6: the lexer folds 唐朝 to the canonical 唐代 at match time, making
the two surface forms indistinguishable from the first dynasty token on
(for every continuation), so 查询唐朝书法家 and 查询唐代书法家 are
byte-identical; the canonical roster lists exactly the calligraphers
whose stored dynasty equals the canonical value. -/
theorem claim_C6_dynasty_synonym :
    (∀ T : List Char, lexList ('唐' :: '朝' :: T) = lexList ('唐' :: '代' :: T)) ∧
    parse "查询唐朝书法家" = parse "查询唐代书法家" ∧
    parse "查询唐代书法家" =
      "🏛️ 唐代著名书法家：\n   颜真卿（楷书）、柳公权（楷书）、张旭（草书）、欧阳询（楷书）" ∧
    (∀ d : String, ∀ p ∈ calligraphers, p ∈ dynastyArtists d ↔ p.2.dynasty = d) := by
  refine ⟨?_, by decide, by decide, ?_⟩
  · intro T
    rw [lexList_step (nextTok_tangchao T), lexList_step (nextTok_tangdai T)]
  · intro d p hp
    simp [dynastyArtists, List.mem_filter, hp]

/-- Witness for C6: the synonym pair at the roster sentences, and 颜真卿
selected for the 唐代 roster. -/
theorem claim_C6_witness :
    parse "查询唐朝书法家" = parse "查询唐代书法家" ∧
    ("颜真卿", Calligrapher.mk "唐代" "楷书" ["祭侄文稿", "多宝塔碑"]
      "楷书四大家之一，创立颜体") ∈ dynastyArtists "唐代" := by
  refine ⟨claim_C6_dynasty_synonym.2.1, ?_⟩
  exact (claim_C6_dynasty_synonym.2.2.2 "唐代" _ (by decide)).mpr (by decide)

end CalligraphyDSL
